import Mathlib

/-!
Verification of the two backtracking-search puzzles of this repository:
a cannibals/explorers river-crossing solver and a Warnsdorff-guided
knight's-tour search on an 8x8 bitboard.

The `Crossing` namespace embeds the river-crossing program; the `Tour`
namespace embeds the knight's-tour program.  C++ `uint64_t` bitboards are
modelled as `Nat` with explicit `% 2 ^ 64` where the C++ arithmetic wraps;
C++ `int` counters are modelled as `Int`.  The unbounded C++ recursion is
modelled with an explicit fuel parameter (`Option` result, `none` = fuel
exhausted); termination of the C++ program corresponds to theorems that a
sufficiently large concrete fuel always yields `some`.
-/

set_option maxRecDepth 100000

namespace Crossing

/-- Global constants of the C++ source (`BOAT_CAPACITY`, `TOTAL_CANNIBALS`,
`TOTAL_EXPLORERS`).  The `int` constants are modelled as `Int`. -/
def BOAT_CAPACITY : Int := 2

def TOTAL_CANNIBALS : Int := 3

def TOTAL_EXPLORERS : Int := 3

/-- Shore enum `LEFT = 0`. -/
def LEFT : Nat := 0

/-- Shore enum `RIGHT = 1`. -/
def RIGHT : Nat := 1

/-- The `Move` POD struct: counts of each role transported by one crossing. -/
structure Move where
  cannibalCount : Int
  explorerCount : Int
deriving DecidableEq, Repr

/-- The `State` class: counts of each role on each bank plus the boat side.
The C++ fields are `int`; `boatSide_` only ever holds `LEFT`/`RIGHT` but is
likewise an integer field, flipped by `^= 1`. -/
structure State where
  leftCannibals : Int
  leftExplorers : Int
  rightCannibals : Int
  rightExplorers : Int
  boatSide : Nat
deriving DecidableEq, Repr

/-- The default-constructed `State`: everyone on the left bank, boat left. -/
def initState : State := ⟨TOTAL_CANNIBALS, TOTAL_EXPLORERS, 0, 0, LEFT⟩

/-- `State::isSuccess`: everyone has been transported to the right bank. -/
def State.isSuccess (s : State) : Bool :=
  s.rightCannibals == TOTAL_CANNIBALS && s.rightExplorers == TOTAL_EXPLORERS

/-- `State::isValid`: cannibals cannot outnumber explorers on either side,
except when there are no explorers on that side. -/
def State.isValid (s : State) : Bool :=
  !((s.leftCannibals > s.leftExplorers && s.leftExplorers != 0) ||
    (s.rightCannibals > s.rightExplorers && s.rightExplorers != 0))

/-- `State::applyMove`: subtract the moved counts from the boat-side bank, add
them to the opposite bank, and flip the boat side by XOR with 1. -/
def State.applyMove (s : State) (m : Move) : State :=
  if s.boatSide = RIGHT then
    { leftCannibals := s.leftCannibals + m.cannibalCount
      leftExplorers := s.leftExplorers + m.explorerCount
      rightCannibals := s.rightCannibals - m.cannibalCount
      rightExplorers := s.rightExplorers - m.explorerCount
      boatSide := s.boatSide ^^^ 1 }
  else
    { leftCannibals := s.leftCannibals - m.cannibalCount
      leftExplorers := s.leftExplorers - m.explorerCount
      rightCannibals := s.rightCannibals + m.cannibalCount
      rightExplorers := s.rightExplorers + m.explorerCount
      boatSide := s.boatSide ^^^ 1 }

/-- `State::undoMove` simply calls `applyMove` again with the same move. -/
def State.undoMove (s : State) (m : Move) : State := s.applyMove m

/-- Iteration space `0..n` of a C++ `for (int i = 0; i <= n; ++i)` loop with an
`Int` bound (empty when `n < 0`). -/
def intRange (n : Int) : List Int := (List.range (n + 1).toNat).map Int.ofNat

/-- `State::createMoveList`: all `(c, e)` with
`0 <= c <= min(BOAT_CAPACITY, cannibals)`,
`0 <= e <= min(BOAT_CAPACITY - c, explorers)` and `c + e > 0`, where the counts
are those of the bank the boat is on; `c` ascending, then `e` ascending. -/
def State.createMoveList (s : State) : List Move :=
  let cannibals := if s.boatSide = LEFT then s.leftCannibals else s.rightCannibals
  let explorers := if s.boatSide = LEFT then s.leftExplorers else s.rightExplorers
  (intRange (min BOAT_CAPACITY cannibals)).flatMap fun c =>
    (intRange (min (BOAT_CAPACITY - c) explorers)).filterMap fun e =>
      if c + e > 0 then some ⟨c, e⟩ else none

/-- The mutable members of the `Solution` class: the shared current state, the
move-history deque `previousMoves`, the `visitedStates` set (modelled as the
list of its elements, most recently inserted first; `std::set` keyed by the
lexicographic `operator<`, whose equivalence is plain equality), and the best
solution found so far, `solutionMoves`. -/
structure Solver where
  cur : State
  prev : List Move
  visited : List State
  sol : List Move
deriving DecidableEq, Repr

/-- The freshly constructed `Solution` object. -/
def initSolver : Solver := ⟨initState, [], [], []⟩

/-- The move loop of `Solution::backtrack`: for each move, apply it, push it
onto `previousMoves`, recurse (the recursive call is the parameter `f`), undo
it and pop it. -/
def goMoves (f : Solver → Option Solver) : Solver → List Move → Option Solver
  | st, [] => some st
  | st, m :: ms =>
    match f { st with cur := st.cur.applyMove m, prev := st.prev ++ [m] } with
    | none => none
    | some st' =>
      goMoves f { st' with cur := st'.cur.undoMove m, prev := st'.prev.dropLast } ms

/-- `Solution::backtrack`, with explicit recursion fuel.  Prune when the state
is invalid or when inserting it into `visitedStates` fails; at a success leaf
record `previousMoves` if strictly shorter than the best (or if none yet);
otherwise loop over `createMoveList` (see `goMoves`). -/
def backtrack : Nat → Solver → Option Solver
  | 0, _ => none
  | fuel + 1, st =>
    if !st.cur.isValid then some st
    else if st.cur ∈ st.visited then some st
    else
      let st1 : Solver := { st with visited := st.cur :: st.visited }
      if st1.cur.isSuccess then
        if st1.sol.isEmpty || st1.prev.length < st1.sol.length then
          some { st1 with sol := st1.prev }
        else some st1
      else
        goMoves (backtrack fuel) st1 st1.cur.createMoveList

end Crossing

namespace Tour

/-- The 64-bit wrap-around of C++ `uint64_t` arithmetic. -/
def w64 (x : Nat) : Nat := x % 2 ^ 64

/-- `FullBB = 0xFFFFFFFFFFFFFFFF`. -/
def FullBB : Nat := 0xFFFFFFFFFFFFFFFF

/-- `FileABB = 0x0101010101010101`. -/
def FileABB : Nat := 0x0101010101010101

/-- `FileBBB = FileABB << 1`. -/
def FileBBB : Nat := w64 (FileABB <<< 1)

/-- `FileGBB = FileABB << 6`. -/
def FileGBB : Nat := w64 (FileABB <<< 6)

/-- `FileHBB = FileABB << 7`. -/
def FileHBB : Nat := w64 (FileABB <<< 7)

/-- Bitwise complement `~b` on a 64-bit word (`b < 2 ^ 64`). -/
def compl64 (b : Nat) : Nat := FullBB ^^^ b

/-- The `noSq` sentinel of the `Squares` enum (one past `h8 = 63`). -/
def noSq : Nat := 64

/-- `getBit`: test whether bit `sq` of `b` is set. -/
def getBit (b : Nat) (sq : Nat) : Bool := Nat.testBit b sq

/-- `setBit`: `b |= (1ULL << sq)`. -/
def setBit (b : Nat) (sq : Nat) : Nat := b ||| w64 (1 <<< sq)

/-- `popBit`: `b &= ~(1ULL << sq)`. -/
def popBit (b : Nat) (sq : Nat) : Nat := b &&& compl64 (w64 (1 <<< sq))

/-- `bitCount`: `__builtin_popcountll`, the number of set bits of a 64-bit
word (the number of set bits among bit indices `0..63`). -/
def bitCount (b : Nat) : Nat := ((List.range 64).filter (Nat.testBit b)).length

/-- `Backtrack::genMoveBoard`: the knight-attack bitboard of `sq`, built from
eight edge-masked shifts, minus the already visited squares. -/
def genMoveBoard (visited : Nat) (sq : Nat) : Nat :=
  let bb := w64 (1 <<< sq)
  let attacks :=
    w64 ((compl64 FileABB &&& bb) <<< 15) |||
    w64 ((compl64 FileHBB &&& bb) <<< 17) |||
    w64 ((compl64 (FileABB ||| FileBBB) &&& bb) <<< 6) |||
    w64 ((compl64 (FileGBB ||| FileHBB) &&& bb) <<< 10) |||
    ((compl64 FileABB &&& bb) >>> 17) |||
    ((compl64 FileHBB &&& bb) >>> 15) |||
    ((compl64 (FileABB ||| FileBBB) &&& bb) >>> 10) |||
    ((compl64 (FileGBB ||| FileHBB) &&& bb) >>> 6)
  attacks &&& compl64 visited

/-- The set bits of a 64-bit word, in ascending order.  This is the order in
which the `while (attacks) { popLsb(attacks); }` loop of `genList` pops them:
`popLsb` removes the least significant set bit first, so the squares come out
by increasing index. -/
def bitsAsc (b : Nat) : List Nat := (List.range 64).filter (Nat.testBit b)

/-- One step of the insertion sort of `genList`: the new pair `x` is shifted
past every already placed pair whose degree is strictly greater, i.e. it is
inserted after all pairs of degree `<= x.2` (stable insertion). -/
def insertMove (x : Nat × Nat) : List (Nat × Nat) → List (Nat × Nat)
  | [] => [x]
  | y :: ys => if x.2 < y.2 then x :: y :: ys else y :: insertMove x ys

/-- The insertion sort of `genList`: pairs are inserted in the order produced
by the `popLsb` loop (ascending square index). -/
def sortMoves (l : List (Nat × Nat)) : List (Nat × Nat) :=
  l.foldl (fun acc x => insertMove x acc) []

/-- `Backtrack::genList`: the 8-slot `MoveList`.  Every slot is initialised to
the sentinel `(noSq, 9)`; each unvisited knight destination of `sq` is paired
with its onward degree `bitCount (genMoveBoard visited d)` and insertion-sorted
by ascending degree; the unused trailing slots keep the sentinel. -/
def genList (visited : Nat) (sq : Nat) : List (Nat × Nat) :=
  let attacks := genMoveBoard visited sq
  let sorted := sortMoves ((bitsAsc attacks).map fun d => (d, bitCount (genMoveBoard visited d)))
  sorted ++ List.replicate (8 - sorted.length) (noSq, 9)

/-- The mutable members of the `Backtrack` class. -/
structure TState where
  visitedSqs : Nat
  stackSq : List Nat
  fullTour : Bool
  totalMoves : Nat
  startingSq : Nat
deriving DecidableEq, Repr

/-- A freshly constructed `Backtrack` object. -/
def initTState : TState := ⟨0, [], false, 0, noSq⟩

/-- The candidate loop of `Backtrack::makeMove` (`while (moves[i].first != noSq)`):
try each ranked candidate in turn via the recursive call `f`; stop and return
as soon as `fullTour` is set. -/
def tourLoop (f : TState → Nat → Option TState) : TState → List (Nat × Nat) → Option TState
  | st, [] => some st
  | st, p :: rest =>
    match f st p.1 with
    | none => none
    | some st' => if st'.fullTour then some st' else tourLoop f st' rest

/-- `Backtrack::makeMove` of `src/unnamed/part_000`, with explicit fuel: mark
`sq` visited and push it; if the board is full, set `fullTour` and return
without undoing; otherwise rank the moves from `sq`, return after undoing if
there are none, else try them in order, undoing only when no recursive call
completed the tour. -/
def makeMove : Nat → TState → Nat → Option TState
  | 0, _, _ => none
  | fuel + 1, st0, sq =>
    let st : TState := { st0 with totalMoves := st0.totalMoves + 1,
                                  visitedSqs := setBit st0.visitedSqs sq,
                                  stackSq := st0.stackSq ++ [sq] }
    if st.visitedSqs = FullBB then some { st with fullTour := true }
    else
      let moves := (genList st.visitedSqs sq).takeWhile fun p => p.1 ≠ noSq
      if moves.isEmpty then
        some { st with visitedSqs := popBit st.visitedSqs sq, stackSq := st.stackSq.dropLast }
      else
        match tourLoop (makeMove fuel) st moves with
        | none => none
        | some st' =>
          if st'.fullTour then some st'
          else some { st' with visitedSqs := popBit st'.visitedSqs sq,
                               stackSq := st'.stackSq.dropLast }

/-- `Backtrack::backtrack`: record the starting square and call `makeMove`. -/
def backtrack (fuel : Nat) (sq : Nat) : Option TState :=
  makeMove fuel { initTState with startingSq := sq } sq

/-- `Backtrack::makeMove` of `src/knights_tour/main.cpp`.  The only difference
from `makeMove` is the completion test `(visitedSqs == FullBB) || fullTour`. -/
def makeMove2 : Nat → TState → Nat → Option TState
  | 0, _, _ => none
  | fuel + 1, st0, sq =>
    let st : TState := { st0 with totalMoves := st0.totalMoves + 1,
                                  visitedSqs := setBit st0.visitedSqs sq,
                                  stackSq := st0.stackSq ++ [sq] }
    if st.visitedSqs = FullBB ∨ st.fullTour = true then some { st with fullTour := true }
    else
      let moves := (genList st.visitedSqs sq).takeWhile fun p => p.1 ≠ noSq
      if moves.isEmpty then
        some { st with visitedSqs := popBit st.visitedSqs sq, stackSq := st.stackSq.dropLast }
      else
        match tourLoop (makeMove2 fuel) st moves with
        | none => none
        | some st' =>
          if st'.fullTour then some st'
          else some { st' with visitedSqs := popBit st'.visitedSqs sq,
                               stackSq := st'.stackSq.dropLast }

/-- `Backtrack::backtrack` of `src/knights_tour/main.cpp`. -/
def backtrack2 (fuel : Nat) (sq : Nat) : Option TState :=
  makeMove2 fuel { initTState with startingSq := sq } sq

end Tour

namespace Crossing

/-- Applying the same move twice restores the state, provided the boat is on
one of the two shores (`boatSide` is `LEFT = 0` or `RIGHT = 1`): the first
application branches on one side and flips the boat, so the second application
takes the opposite branch and cancels every count update. -/
theorem applyMove_applyMove (s : State) (m : Move) (h : s.boatSide ≤ 1) :
    (s.applyMove m).applyMove m = s := by
  obtain ⟨lc, le, rc, re, b⟩ := s
  interval_cases b <;> simp [State.applyMove, RIGHT]

/-- Replaying a move list from a state, `foldl` over `State::applyMove` (this
is what `Solution::printOutput` does with `solutionMoves` on a fresh state). -/
def replay (s : State) (ms : List Move) : State := ms.foldl State.applyMove s

/-- All states passed through while replaying a move list, the initial and
final states included. -/
def trajectory (s : State) (ms : List Move) : List State := ms.scanl State.applyMove s

/-- A move sequence is legal-and-safe from `s` when each move is generated by
`State::createMoveList` at the state where it is played and each state it
produces satisfies `State::isValid`. -/
def legalValidSeq : State → List Move → Bool
  | _, [] => true
  | s, m :: ms =>
    decide (m ∈ s.createMoveList) && (s.applyMove m).isValid && legalValidSeq (s.applyMove m) ms

/-- The valid successor states of `s` under the generated moves. -/
def succs (s : State) : List State := (s.createMoveList.map s.applyMove).filter State.isValid

/-- All states reachable from the initial state by at most `n` legal moves
through valid intermediate states. -/
def reachWithin : Nat → List State
  | 0 => [initState]
  | n + 1 => (reachWithin n ++ (reachWithin n).flatMap succs).dedup

theorem mem_reachWithin_succ {s : State} {n : Nat} (h : s ∈ reachWithin n) :
    s ∈ reachWithin (n + 1) := by
  simp only [reachWithin, List.mem_dedup, List.mem_append]
  exact Or.inl h

theorem mem_reachWithin_step {s : State} {n : Nat} {m : Move} (h : s ∈ reachWithin n)
    (hm : m ∈ s.createMoveList) (hv : (s.applyMove m).isValid = true) :
    s.applyMove m ∈ reachWithin (n + 1) := by
  simp only [reachWithin, List.mem_dedup, List.mem_append]
  refine Or.inr ?_
  simp only [List.mem_flatMap]
  exact ⟨s, h, by simp only [succs, List.mem_filter, List.mem_map]; exact ⟨⟨m, hm, rfl⟩, hv⟩⟩

theorem reachWithin_mono {k n : Nat} (h : k ≤ n) : ∀ s, s ∈ reachWithin k → s ∈ reachWithin n := by
  induction n with
  | zero => cases Nat.le_zero.mp h; exact fun s hs => hs
  | succ n ih =>
    intro s hs
    rcases Nat.le_succ_iff.mp h with h' | h'
    · exact mem_reachWithin_succ (ih h' s hs)
    · cases h'; exact hs

theorem replay_mem_reachWithin :
    ∀ (ms : List Move) (s : State) (n : Nat), s ∈ reachWithin n →
      legalValidSeq s ms = true → replay s ms ∈ reachWithin (n + ms.length) := by
  intro ms
  induction ms with
  | nil => intro s n hs _; simpa [replay] using hs
  | cons m ms ih =>
    intro s n hs hleg
    simp only [legalValidSeq, Bool.and_eq_true, decide_eq_true_eq] at hleg
    obtain ⟨⟨hm, hv⟩, hrest⟩ := hleg
    have hstep := mem_reachWithin_step hs hm hv
    have := ih (s.applyMove m) (n + 1) hstep hrest
    simpa [replay, List.length_cons, Nat.add_assoc, Nat.add_comm 1 ms.length] using this

/-- No state reachable in at most 10 legal moves through valid states is a
success state (exhaustive finite check of the deduplicated reach sets). -/
theorem no_success_within_ten :
    (reachWithin 10).all (fun s => !s.isSuccess) = true := by decide

/-- Any legal, all-valid move sequence from the initial state that ends in a
success state has at least 11 moves. -/
theorem eleven_le_solution_length (ms : List Move) (hleg : legalValidSeq initState ms = true)
    (hsucc : (replay initState ms).isSuccess = true) : 11 ≤ ms.length := by
  by_contra hlt
  push_neg at hlt
  have hms : ms.length ≤ 10 := by omega
  have h0 : initState ∈ reachWithin 0 := by simp [reachWithin]
  have hmem := replay_mem_reachWithin ms initState 0 h0 hleg
  rw [Nat.zero_add] at hmem
  have hmem10 := reachWithin_mono hms _ hmem
  have hall := no_success_within_ten
  rw [List.all_eq_true] at hall
  have := hall _ hmem10
  simp [hsucc] at this

end Crossing

namespace Crossing

/-- Claim C6: for every river-crossing state `s` (boat on one of the two
shores) and every move `m`, applying `applyMove m` twice in succession returns
exactly `s` — all four shore counts and the boat side regain their prior
values — and therefore `undoMove m` after `applyMove m` restores the prior
state. -/
theorem claim_C6_move_self_inverse (s : State) (m : Move) (h : s.boatSide ≤ 1) :
    (s.applyMove m).applyMove m = s ∧ (s.applyMove m).undoMove m = s :=
  ⟨applyMove_applyMove s m h, applyMove_applyMove s m h⟩

/-- Witness for claim C6 at the initial state and the move `(1, 1)`. -/
theorem claim_C6_witness :
    (initState.applyMove ⟨1, 1⟩).applyMove ⟨1, 1⟩ = initState ∧
      (initState.applyMove ⟨1, 1⟩).undoMove ⟨1, 1⟩ = initState :=
  claim_C6_move_self_inverse initState ⟨1, 1⟩ (by decide)

/-- Claim C1: for the hard-coded configuration (3 cannibals, 3 explorers, boat
capacity 2) the search, run with ample fuel, returns; `solutionMoves` has
exactly 11 moves; replaying it from the initial state is legal and safe and
ends with 3 cannibals and 3 explorers on the right shore; and no strictly
shorter legal move sequence through only valid states reaches a success
state. -/
theorem claim_C1_minimal_solution :
    ∃ st, backtrack 40 initSolver = some st ∧
      st.sol.length = 11 ∧
      legalValidSeq initState st.sol = true ∧
      (replay initState st.sol).isSuccess = true ∧
      ∀ ms : List Move, legalValidSeq initState ms = true →
        (replay initState ms).isSuccess = true → 11 ≤ ms.length := by
  refine ⟨(backtrack 40 initSolver).getD initSolver, by decide, by decide, by decide, by decide,
    fun ms hleg hsucc => eleven_le_solution_length ms hleg hsucc⟩

/-- Witness for claim C1: its minimality clause applied to the recorded
solution itself. -/
theorem claim_C1_witness : 11 ≤ ((backtrack 40 initSolver).getD initSolver).sol.length := by
  obtain ⟨st, hst, _, hleg, hsucc, hmin⟩ := claim_C1_minimal_solution
  rw [hst]
  exact hmin st.sol hleg hsucc

/-- Claim C8: every state in the trajectory obtained by replaying
`solutionMoves` from the initial state — the initial and final states
included — satisfies the safety predicate (on each shore, cannibals do not
outnumber explorers unless that shore has no explorers), equivalently
`State::isValid`. -/
theorem claim_C8_trajectory_safe :
    (trajectory initState ((backtrack 40 initSolver).getD initSolver).sol).all
      (fun s => ((s.leftCannibals ≤ s.leftExplorers || s.leftExplorers == 0) &&
                 (s.rightCannibals ≤ s.rightExplorers || s.rightExplorers == 0)) &&
                s.isValid) = true := by decide

end Crossing

namespace Crossing

/-- The finite state space the search lives in: each role count on the left
bank between 0 and its total, the right bank holding the remainder, and the
boat on one of the two shores (32 states in all). -/
def SpaceList : List State :=
  (List.range 4).flatMap fun lc =>
    (List.range 4).flatMap fun le =>
      [⟨(lc : Int), (le : Int), 3 - (lc : Int), 3 - (le : Int), LEFT⟩,
       ⟨(lc : Int), (le : Int), 3 - (lc : Int), 3 - (le : Int), RIGHT⟩]

/-- Moves generated by `createMoveList` keep all shore counts within the fixed
totals: the state space is closed under generated moves. -/
theorem applyMove_mem_SpaceList :
    ∀ s ∈ SpaceList, ∀ m ∈ s.createMoveList, s.applyMove m ∈ SpaceList := by decide

/-- Every state of the space has its boat on one of the two shores. -/
theorem boatSide_le_one_of_mem : ∀ s ∈ SpaceList, s.boatSide ≤ 1 := by decide

/-- A duplicate-free list of states of the space has at most 32 elements. -/
theorem nodup_subset_le_32 {l : List State} (h1 : l.Nodup) (h2 : ∀ s ∈ l, s ∈ SpaceList) :
    l.length ≤ 32 := by
  have hsub := (List.subperm_of_subset h1 fun x hx => h2 x hx).length_le
  have hlen : SpaceList.length = 32 := by decide
  omega

/-- Invariant carried by the solver through the recursion: the current state
stays inside the finite space, and the visited set is a duplicate-free subset
of it. -/
def solverInv (st : Solver) : Prop :=
  st.cur ∈ SpaceList ∧ st.visited.Nodup ∧ ∀ s ∈ st.visited, s ∈ SpaceList

/-- What a completed call leaves behind: it returns (fuel was not exhausted),
the current state and the move history are restored to their values at entry,
and the visited set has only grown (the entry set is a suffix of the final
one) while staying a duplicate-free subset of the space. -/
def btPost (st : Solver) (res : Option Solver) : Prop :=
  ∃ st', res = some st' ∧ st'.cur = st.cur ∧ st'.prev = st.prev ∧
    st'.visited.Nodup ∧ (∀ s ∈ st'.visited, s ∈ SpaceList) ∧ st.visited <:+ st'.visited

/-- Fuel sufficiency for `Solution::backtrack`: every non-pruned call strictly
grows the duplicate-free visited set inside the 32-element space, so call
depth `33 - |visited|` suffices and the recursion always completes. -/
theorem backtrack_total :
    ∀ fuel st, solverInv st → 33 ≤ fuel + st.visited.length → btPost st (backtrack fuel st) := by
  intro fuel
  induction fuel with
  | zero =>
    intro st hinv hfuel
    exact absurd hfuel (by have := nodup_subset_le_32 hinv.2.1 hinv.2.2; omega)
  | succ fuel ih =>
    have gm : ∀ ms st, st.cur ∈ SpaceList → (∀ m ∈ ms, m ∈ st.cur.createMoveList) →
        st.visited.Nodup → (∀ s ∈ st.visited, s ∈ SpaceList) →
        33 ≤ fuel + st.visited.length → btPost st (goMoves (backtrack fuel) st ms) := by
      intro ms
      induction ms with
      | nil =>
        intro st h1 _ h3 h4 _
        exact ⟨st, rfl, rfl, rfl, h3, h4, List.suffix_rfl⟩
      | cons m ms ihm =>
        intro st h1 h2 h3 h4 h5
        have hm : m ∈ st.cur.createMoveList := h2 m (List.mem_cons_self m ms)
        have hcur' : st.cur.applyMove m ∈ SpaceList := applyMove_mem_SpaceList _ h1 _ hm
        obtain ⟨st', heq, hcur, hprev, hnd, hsub, hsuf⟩ :=
          ih { st with cur := st.cur.applyMove m, prev := st.prev ++ [m] }
            ⟨hcur', h3, h4⟩ (by simpa using h5)
        simp only [goMoves]
        rw [heq]
        have hundo : st'.cur.undoMove m = st.cur := by
          rw [hcur]
          exact applyMove_applyMove st.cur m (boatSide_le_one_of_mem _ h1)
        have hpop : st'.prev.dropLast = st.prev := by
          rw [hprev]; exact List.dropLast_concat
        obtain ⟨st'', heq'', hcur'', hprev'', hnd'', hsub'', hsuf''⟩ :=
          ihm { st' with cur := st'.cur.undoMove m, prev := st'.prev.dropLast }
            (by simpa [hundo] using h1)
            (by simpa [hundo] using fun m' hm' => h2 m' (List.mem_cons_of_mem m hm'))
            hnd hsub
            (by have h6 := hsuf.length_le; simp only [List.length_cons] at h6 ⊢; omega)
        refine ⟨st'', heq'', by simpa [hundo] using hcur'', by simpa [hpop] using hprev'',
          hnd'', hsub'', hsuf.trans hsuf''⟩
    intro st hinv hfuel
    obtain ⟨hcurmem, hnd, hsub⟩ := hinv
    simp only [backtrack]
    by_cases hval : st.cur.isValid
    · rw [if_neg (by simp [hval])]
      by_cases hmem : st.cur ∈ st.visited
      · rw [if_pos hmem]
        exact ⟨st, rfl, rfl, rfl, hnd, hsub, List.suffix_rfl⟩
      · rw [if_neg hmem]
        have hnd1 : (st.cur :: st.visited).Nodup := List.nodup_cons.mpr ⟨hmem, hnd⟩
        have hsub1 : ∀ s ∈ st.cur :: st.visited, s ∈ SpaceList := by
          intro s hs
          rcases List.mem_cons.mp hs with h | h
          · exact h ▸ hcurmem
          · exact hsub s h
        by_cases hsucc : st.cur.isSuccess
        · rw [if_pos hsucc]
          by_cases hbest : st.sol.isEmpty || st.prev.length < st.sol.length
          · rw [if_pos hbest]
            exact ⟨_, rfl, rfl, rfl, hnd1, hsub1, List.suffix_cons st.cur st.visited⟩
          · rw [if_neg hbest]
            exact ⟨_, rfl, rfl, rfl, hnd1, hsub1, List.suffix_cons st.cur st.visited⟩
        · rw [if_neg hsucc]
          obtain ⟨st', heq, hcur, hprev, hnd', hsub', hsuf'⟩ :=
            gm _ { st with visited := st.cur :: st.visited } hcurmem (fun m hm => hm)
              hnd1 hsub1 (by simp only [List.length_cons]; omega)
          exact ⟨st', heq, hcur, hprev, hnd', hsub',
            (List.suffix_cons st.cur st.visited).trans hsuf'⟩
    · rw [if_pos (by simp [hval])]
      exact ⟨st, rfl, rfl, rfl, hnd, hsub, List.suffix_rfl⟩

/-- Claim C9: `Solution::backtrack` terminates on every input state satisfying
the reachability invariant (current state within the fixed totals, visited set
a duplicate-free subset of the finite space): the visited set strictly grows
on each non-pruned call, generated moves keep the state inside the space, and
the space is finite, so fuel 33 — one more than the number of states — always
suffices and the search returns. -/
theorem claim_C9_backtrack_terminates (st : Solver) (h : solverInv st) :
    ∃ st', backtrack 33 st = some st' := by
  obtain ⟨st', heq, -⟩ := backtrack_total 33 st h (Nat.le_add_right 33 _)
  exact ⟨st', heq⟩

/-- Witness for claim C9 at the freshly constructed solver. -/
theorem claim_C9_witness : ∃ st', backtrack 33 initSolver = some st' :=
  claim_C9_backtrack_terminates initSolver (by constructor <;> decide)

end Crossing

namespace Tour

theorem FullBB_eq : FullBB = 2 ^ 64 - 1 := by decide

theorem FullBB_lt : FullBB < 2 ^ 64 := by decide

theorem testBit_FullBB (i : Nat) : Nat.testBit FullBB i = decide (i < 64) := by
  rw [FullBB_eq, Nat.testBit_two_pow_sub_one]

theorem testBit_ge_64 {b i : Nat} (hb : b < 2 ^ 64) (hi : 64 ≤ i) : Nat.testBit b i = false :=
  Nat.testBit_lt_two_pow (lt_of_lt_of_le hb (Nat.pow_le_pow_right (by omega) hi))

theorem testBit_compl64 {b : Nat} (hb : b < 2 ^ 64) (i : Nat) :
    Nat.testBit (compl64 b) i = (decide (i < 64) && !Nat.testBit b i) := by
  by_cases hi : i < 64
  · simp [compl64, Nat.testBit_xor, testBit_FullBB, hi]
  · have hb' : Nat.testBit b i = false := testBit_ge_64 hb (by omega)
    simp [compl64, Nat.testBit_xor, testBit_FullBB, hi, hb']

theorem compl64_lt {b : Nat} (hb : b < 2 ^ 64) : compl64 b < 2 ^ 64 :=
  Nat.xor_lt_two_pow FullBB_lt hb

theorem w64_lt (x : Nat) : w64 x < 2 ^ 64 := Nat.mod_lt _ (by omega)

/-- `1ULL << sq` on a 64-bit word: `2 ^ sq` for a board square, `0` above. -/
theorem w64_one_shiftLeft (sq : Nat) :
    w64 (1 <<< sq) = if sq < 64 then 2 ^ sq else 0 := by
  rw [w64, Nat.shiftLeft_eq, Nat.one_mul]
  by_cases h : sq < 64
  · rw [if_pos h]
    exact Nat.mod_eq_of_lt (Nat.pow_lt_pow_right (by omega) h)
  · rw [if_neg h]
    exact Nat.mod_eq_zero_of_dvd (Nat.pow_dvd_pow 2 (by omega))

theorem testBit_setBit {b : Nat} (sq : Nat) (hsq : sq < 64) (i : Nat) :
    Nat.testBit (setBit b sq) i = (Nat.testBit b i || decide (i = sq)) := by
  rw [setBit, Nat.testBit_or, w64_one_shiftLeft, if_pos hsq, Nat.testBit_two_pow]
  by_cases h : i = sq
  · subst h; simp
  · simp [h, Ne.symm h]

theorem setBit_lt {b : Nat} (hb : b < 2 ^ 64) (sq : Nat) : setBit b sq < 2 ^ 64 :=
  Nat.or_lt_two_pow hb (w64_lt _)

theorem testBit_popBit {b : Nat} (hb : b < 2 ^ 64) {sq : Nat} (hsq : sq < 64) (i : Nat) :
    Nat.testBit (popBit b sq) i = (Nat.testBit b i && !decide (i = sq)) := by
  rw [popBit, Nat.testBit_and, w64_one_shiftLeft, if_pos hsq,
    testBit_compl64 (Nat.pow_lt_pow_right (by omega) hsq), Nat.testBit_two_pow]
  by_cases h : i = sq
  · subst h; simp [hsq]
  · by_cases hi : i < 64
    · simp [h, Ne.symm h, hi]
    · have hb' : Nat.testBit b i = false := testBit_ge_64 hb (by omega)
      simp [h, Ne.symm h, hi, hb']

theorem popBit_lt {b : Nat} (hb : b < 2 ^ 64) (sq : Nat) : popBit b sq < 2 ^ 64 :=
  lt_of_le_of_lt Nat.and_le_left hb

/-- Clearing a freshly set bit restores the original word. -/
theorem popBit_setBit {b : Nat} (hb : b < 2 ^ 64) {sq : Nat} (hsq : sq < 64)
    (h : Nat.testBit b sq = false) : popBit (setBit b sq) sq = b := by
  refine Nat.eq_of_testBit_eq fun i => ?_
  rw [testBit_popBit (setBit_lt hb sq) hsq, testBit_setBit sq hsq]
  by_cases hi : i = sq <;> simp [hi, h]

end Tour

namespace Tour

theorem shiftRight_lt_64 {x : Nat} (hx : x < 2 ^ 64) (k : Nat) : x >>> k < 2 ^ 64 :=
  lt_of_le_of_lt (by rw [Nat.shiftRight_eq_div_pow]; exact Nat.div_le_self x _) hx

theorem genMoveBoard_lt {v : Nat} (hv : v < 2 ^ 64) (sq : Nat) : genMoveBoard v sq < 2 ^ 64 := by
  simp only [genMoveBoard]
  exact Nat.and_lt_two_pow _ (compl64_lt hv)

/-- The visited-squares mask factors out of `genMoveBoard`: the move board on
a visited set is the raw (empty-board) move board masked by `~visited`. -/
theorem genMoveBoard_eq_raw_and {v : Nat} (hv : v < 2 ^ 64) (sq : Nat) :
    genMoveBoard v sq = genMoveBoard 0 sq &&& compl64 v := by
  refine Nat.eq_of_testBit_eq fun i => ?_
  by_cases hi : i < 64
  · have hc0 : Nat.testBit (compl64 0) i = true := by
      rw [testBit_compl64 (by omega)]; simp [hi]
    simp only [genMoveBoard, Nat.testBit_and, hc0, Bool.and_true]
  · have h1 : Nat.testBit (genMoveBoard v sq) i = false :=
      testBit_ge_64 (genMoveBoard_lt hv sq) (by omega)
    have h2 : Nat.testBit (genMoveBoard 0 sq &&& compl64 v) i = false :=
      testBit_ge_64 (lt_of_le_of_lt Nat.and_le_left (genMoveBoard_lt (by omega) sq)) (by omega)
    rw [h1, h2]

/-- A set bit of the masked move board is a raw knight-attack bit, names an
unvisited square, and lies on the board. -/
theorem testBit_genMoveBoard_true {v sq d : Nat} (hv : v < 2 ^ 64)
    (h : Nat.testBit (genMoveBoard v sq) d = true) :
    Nat.testBit (genMoveBoard 0 sq) d = true ∧ Nat.testBit v d = false ∧ d < 64 := by
  rw [genMoveBoard_eq_raw_and hv, Nat.testBit_and, Bool.and_eq_true] at h
  obtain ⟨h1, h2⟩ := h
  have hd : d < 64 := by
    by_contra hd
    rw [testBit_ge_64 (genMoveBoard_lt (by omega) sq) (by omega)] at h1
    exact Bool.noConfusion h1
  rw [testBit_compl64 hv] at h2
  simp [hd] at h2
  exact ⟨h1, h2, hd⟩

/-- A legal knight move between two board squares, stated with coordinates:
the row and column distances are 1 and 2 in some order. -/
def isKnightMove (a b : Nat) : Bool :=
  decide (a < 64) && decide (b < 64) &&
    (let dr := max (a / 8) (b / 8) - min (a / 8) (b / 8)
     let dc := max (a % 8) (b % 8) - min (a % 8) (b % 8)
     (decide (dr = 1) && decide (dc = 2)) || (decide (dr = 2) && decide (dc = 1)))

/-- The raw shift-generated attack board agrees with the coordinate definition
of a knight move on every pair of board squares. -/
theorem knight_bridge :
    ∀ a, a < 64 → ∀ b, b < 64 → Nat.testBit (genMoveBoard 0 a) b = isKnightMove a b := by decide

/-- The bitboard holding exactly the squares of a path list (`visitedSqs` as a
function of `stackSq`). -/
def stackToBB (l : List Nat) : Nat := l.foldl setBit 0

theorem stackToBB_append (l : List Nat) (x : Nat) :
    stackToBB (l ++ [x]) = setBit (stackToBB l) x := by
  simp [stackToBB, List.foldl_append]

theorem foldl_setBit_lt (l : List Nat) : ∀ b, b < 2 ^ 64 → l.foldl setBit b < 2 ^ 64 := by
  induction l with
  | nil => exact fun b hb => hb
  | cons y l ih => exact fun b hb => ih _ (setBit_lt hb y)

theorem stackToBB_lt (l : List Nat) : stackToBB l < 2 ^ 64 :=
  foldl_setBit_lt l 0 (by omega)

theorem testBit_foldl_setBit :
    ∀ (l : List Nat), (∀ y ∈ l, y < 64) → ∀ b i,
      Nat.testBit (l.foldl setBit b) i = (Nat.testBit b i || decide (i ∈ l)) := by
  intro l
  induction l with
  | nil => intro _ b i; simp
  | cons y l ih =>
    intro hl b i
    rw [List.foldl_cons, ih (fun z hz => hl z (List.mem_cons_of_mem y hz)),
      testBit_setBit y (hl y (List.mem_cons_self y l))]
    by_cases h1 : i = y <;> by_cases h2 : i ∈ l <;> simp [h1, h2, List.mem_cons]

theorem testBit_stackToBB {l : List Nat} (hl : ∀ y ∈ l, y < 64) (i : Nat) :
    Nat.testBit (stackToBB l) i = decide (i ∈ l) := by
  rw [stackToBB, testBit_foldl_setBit l hl]
  simp

end Tour

namespace Tour

/-- The ordering `genList` establishes: ascending onward degree, ties broken
by ascending square index. -/
def lexKey (a b : Nat × Nat) : Prop := a.2 < b.2 ∨ (a.2 = b.2 ∧ a.1 < b.1)

theorem mem_insertMove {x y : Nat × Nat} :
    ∀ {l : List (Nat × Nat)}, (y ∈ insertMove x l ↔ y = x ∨ y ∈ l) := by
  intro l
  induction l with
  | nil => simp [insertMove]
  | cons z l ih =>
    rw [insertMove]
    by_cases h : x.2 < z.2
    · rw [if_pos h]
      simp only [List.mem_cons]
    · rw [if_neg h]
      simp only [List.mem_cons, ih]
      tauto

theorem mem_sortMoves_aux {y : Nat × Nat} :
    ∀ (l acc : List (Nat × Nat)),
      (y ∈ l.foldl (fun acc x => insertMove x acc) acc ↔ y ∈ acc ∨ y ∈ l) := by
  intro l
  induction l with
  | nil => simp
  | cons x l ih =>
    intro acc
    rw [List.foldl_cons, ih, mem_insertMove]
    simp [List.mem_cons]
    tauto

theorem mem_sortMoves {l : List (Nat × Nat)} {y : Nat × Nat} :
    y ∈ sortMoves l ↔ y ∈ l := by
  rw [sortMoves, mem_sortMoves_aux]
  simp

theorem insertMove_pairwise {x : Nat × Nat} :
    ∀ {l : List (Nat × Nat)}, l.Pairwise lexKey → (∀ a ∈ l, a.1 < x.1) →
      (insertMove x l).Pairwise lexKey := by
  intro l
  induction l with
  | nil => intro _ _; simp [insertMove, List.pairwise_singleton]
  | cons z l ih =>
    intro hp hlt
    rw [insertMove]
    by_cases h : x.2 < z.2
    · rw [if_pos h]
      refine List.Pairwise.cons (fun w hw => ?_) hp
      rcases List.mem_cons.mp hw with rfl | hw'
      · exact Or.inl h
      · have hzw := List.rel_of_pairwise_cons hp hw'
        rcases hzw with h1 | ⟨h1, _⟩
        · exact Or.inl (by omega)
        · exact Or.inl (by omega)
    · rw [if_neg h]
      refine List.Pairwise.cons (fun w hw => ?_) ?_
      · rcases mem_insertMove.mp hw with rfl | hw'
        · by_cases hz : z.2 = w.2
          · exact Or.inr ⟨hz, hlt z (List.mem_cons_self z l)⟩
          · exact Or.inl (by omega)
        · exact List.rel_of_pairwise_cons hp hw'
      · exact ih (List.Pairwise.of_cons hp) fun a ha => hlt a (List.mem_cons_of_mem z ha)

theorem sortMoves_pairwise_aux :
    ∀ (l acc : List (Nat × Nat)), acc.Pairwise lexKey →
      (∀ a ∈ acc, ∀ x ∈ l, a.1 < x.1) → l.Pairwise (fun a b => a.1 < b.1) →
      (l.foldl (fun acc x => insertMove x acc) acc).Pairwise lexKey := by
  intro l
  induction l with
  | nil => intro acc h _ _; exact h
  | cons x l ih =>
    intro acc hacc hcross hl
    rw [List.foldl_cons]
    refine ih _ (insertMove_pairwise hacc fun a ha => hcross a ha x (List.mem_cons_self x l))
      (fun a ha z hz => ?_) (List.Pairwise.of_cons hl)
    rcases mem_insertMove.mp ha with rfl | ha'
    · exact List.rel_of_pairwise_cons hl hz
    · exact hcross a ha' z (List.mem_cons_of_mem x hz)

/-- The sorted part of `genList` is pairwise ordered by ascending degree with
ties broken by ascending square index, whenever the input pairs carry strictly
ascending square indices (which the `popLsb` order guarantees). -/
theorem sortMoves_pairwise {l : List (Nat × Nat)} (h : l.Pairwise fun a b => a.1 < b.1) :
    (sortMoves l).Pairwise lexKey :=
  sortMoves_pairwise_aux l [] (List.Pairwise.nil) (by simp) h

theorem mem_bitsAsc {b d : Nat} : d ∈ bitsAsc b ↔ d < 64 ∧ Nat.testBit b d = true := by
  simp [bitsAsc, List.mem_filter, List.mem_range]

theorem bitsAsc_pairwise (b : Nat) : (bitsAsc b).Pairwise (· < ·) :=
  (List.pairwise_lt_range 64).sublist (List.filter_sublist _)

end Tour

namespace Tour

theorem mem_takeWhile_facts {p : Nat × Nat → Bool} {l : List (Nat × Nat)} {x : Nat × Nat}
    (h : x ∈ l.takeWhile p) : x ∈ l ∧ p x = true :=
  ⟨(List.takeWhile_sublist p).subset h, List.mem_takeWhile_imp h⟩

/-- Every pair in the real (pre-sentinel) part of `genList visited sq` names an
unvisited on-board knight destination of `sq` and carries the onward degree
computed from the same `visited` mask. -/
theorem mem_genList_real {v sq : Nat} (hv : v < 2 ^ 64) {p : Nat × Nat}
    (hp : p ∈ (genList v sq).takeWhile fun q => q.1 ≠ noSq) :
    p.1 < 64 ∧ Nat.testBit (genMoveBoard v sq) p.1 = true ∧
      p.2 = bitCount (genMoveBoard v p.1) ∧ Nat.testBit v p.1 = false ∧
      Nat.testBit (genMoveBoard 0 sq) p.1 = true := by
  obtain ⟨h1, h2⟩ := mem_takeWhile_facts hp
  simp only [genList] at h1
  rcases List.mem_append.mp h1 with h | h
  · obtain ⟨d, hd, rfl⟩ := List.mem_map.mp (mem_sortMoves.mp h)
    obtain ⟨hd64, hbit⟩ := mem_bitsAsc.mp hd
    obtain ⟨hraw, hunvis, _⟩ := testBit_genMoveBoard_true hv hbit
    exact ⟨hd64, hbit, rfl, hunvis, hraw⟩
  · exfalso
    rw [List.eq_of_mem_replicate h] at h2
    simp at h2

/-- Frame property of the candidate loop: if the recursive call `f` restores
`visitedSqs` and `stackSq` on every failed (non-tour) return, then so does the
loop as a whole. -/
theorem tourLoop_frame {f : TState → Nat → Option TState}
    (hf : ∀ st sq r, st.visitedSqs < 2 ^ 64 → sq < 64 →
      Nat.testBit st.visitedSqs sq = false → st.fullTour = false →
      f st sq = some r → r.fullTour = false →
      r.visitedSqs = st.visitedSqs ∧ r.stackSq = st.stackSq) :
    ∀ (ms : List (Nat × Nat)) (st r : TState), st.visitedSqs < 2 ^ 64 →
      st.fullTour = false →
      (∀ p ∈ ms, p.1 < 64 ∧ Nat.testBit st.visitedSqs p.1 = false) →
      tourLoop f st ms = some r → r.fullTour = false →
      r.visitedSqs = st.visitedSqs ∧ r.stackSq = st.stackSq := by
  intro ms
  induction ms with
  | nil =>
    intro st r _ _ _ heq _
    cases heq
    exact ⟨rfl, rfl⟩
  | cons p rest ih =>
    intro st r hlt hft hms heq hr
    rw [tourLoop] at heq
    cases hc : f st p.1 with
    | none => rw [hc] at heq; simp at heq
    | some st' =>
      rw [hc] at heq
      simp only at heq
      by_cases hft' : st'.fullTour
      · rw [if_pos hft'] at heq
        cases heq
        exact absurd hft' (by simp [hr])
      · rw [if_neg hft'] at heq
        obtain ⟨hp1, hp2⟩ := hms p (List.mem_cons_self p rest)
        obtain ⟨hv', hs'⟩ :=
          hf st p.1 st' hlt hp1 hp2 hft hc (Bool.not_eq_true _ ▸ by simpa using hft')
        obtain ⟨hrv, hrs⟩ := ih st' r (hv' ▸ hlt) (by simpa using hft')
          (by rw [hv']; exact fun q hq => hms q (List.mem_cons_of_mem p hq)) heq hr
        exact ⟨hrv.trans hv', hrs.trans hs'⟩

end Tour

namespace Tour

/-- Frame property of `Backtrack::makeMove`: a call on an unvisited square that
returns without completing the tour leaves `visitedSqs` and `stackSq` exactly
as they were (the tentative bit is cleared and the tentative push popped). -/
theorem makeMove_frame :
    ∀ (fuel : Nat) (st0 : TState) (sq : Nat) (r : TState),
      st0.visitedSqs < 2 ^ 64 → sq < 64 → Nat.testBit st0.visitedSqs sq = false →
      st0.fullTour = false → makeMove fuel st0 sq = some r → r.fullTour = false →
      r.visitedSqs = st0.visitedSqs ∧ r.stackSq = st0.stackSq := by
  intro fuel
  induction fuel with
  | zero =>
    intro st0 sq r _ _ _ _ heq _
    simp [makeMove] at heq
  | succ fuel ih =>
    intro st0 sq r hlt hsq hbit hft heq hr
    rw [makeMove] at heq
    simp only at heq
    by_cases hfull : setBit st0.visitedSqs sq = FullBB
    · rw [if_pos hfull] at heq
      cases heq
      simp at hr
    · rw [if_neg hfull] at heq
      by_cases hempty :
          (((genList (setBit st0.visitedSqs sq) sq).takeWhile fun p => p.1 ≠ noSq).isEmpty : Bool)
      · rw [if_pos hempty] at heq
        cases heq
        exact ⟨popBit_setBit hlt hsq hbit, by simp [List.dropLast_concat]⟩
      · rw [if_neg hempty] at heq
        cases hc : tourLoop (makeMove fuel)
            { st0 with totalMoves := st0.totalMoves + 1,
                       visitedSqs := setBit st0.visitedSqs sq,
                       stackSq := st0.stackSq ++ [sq] }
            ((genList (setBit st0.visitedSqs sq) sq).takeWhile fun p => p.1 ≠ noSq) with
        | none => rw [hc] at heq; simp at heq
        | some st' =>
          rw [hc] at heq
          simp only at heq
          by_cases hft' : st'.fullTour
          · rw [if_pos hft'] at heq
            cases heq
            exact absurd hft' (by simp [hr])
          · rw [if_neg hft'] at heq
            cases heq
            have hmoves : ∀ p ∈ (genList (setBit st0.visitedSqs sq) sq).takeWhile
                fun p => p.1 ≠ noSq,
                p.1 < 64 ∧ Nat.testBit (setBit st0.visitedSqs sq) p.1 = false := by
              intro p hp
              obtain ⟨h1, _, _, h4, _⟩ := mem_genList_real (setBit_lt hlt sq) hp
              exact ⟨h1, h4⟩
            obtain ⟨hv', hs'⟩ := tourLoop_frame ih _ _ st'
              (by simpa using setBit_lt hlt sq) (by simpa using hft) (by simpa using hmoves)
              hc (by simpa using hft')
            simp only at hv' hs'
            constructor
            · simp only [hv']
              exact popBit_setBit hlt hsq hbit
            · simp only [hs']
              simp [List.dropLast_concat]

end Tour

namespace Tour

/-- Claim C7: for every unvisited square `sq`, if `makeMove sq` returns with
`fullTour` still false (dead end with an empty move list, or all candidates
exhausted without solving), then `visitedSqs` and the path stack `stackSq`
are exactly equal to their values before the call — the engine backtracks
(bit cleared, path popped) rather than terminating the whole search. -/
theorem claim_C7_failed_call_restores (fuel : Nat) (st0 : TState) (sq : Nat) (r : TState)
    (h1 : st0.visitedSqs < 2 ^ 64) (h2 : sq < 64)
    (h3 : Nat.testBit st0.visitedSqs sq = false) (h4 : st0.fullTour = false)
    (h5 : makeMove fuel st0 sq = some r) (h6 : r.fullTour = false) :
    r.visitedSqs = st0.visitedSqs ∧ r.stackSq = st0.stackSq :=
  makeMove_frame fuel st0 sq r h1 h2 h3 h4 h5 h6

/-- Witness for claim C7: at square a1 with both of its knight neighbors (c2
and b3) already visited, the move list is sentinel-only and the call backtracks
without touching the prior visited set or path. -/
theorem claim_C7_witness :
    ((makeMove 5 ⟨2 ^ 10 + 2 ^ 17, [10, 17], false, 0, 64⟩ 0).getD initTState).visitedSqs
        = 2 ^ 10 + 2 ^ 17 ∧
      ((makeMove 5 ⟨2 ^ 10 + 2 ^ 17, [10, 17], false, 0, 64⟩ 0).getD initTState).stackSq
        = [10, 17] :=
  claim_C7_failed_call_restores 5 ⟨2 ^ 10 + 2 ^ 17, [10, 17], false, 0, 64⟩ 0
    ((makeMove 5 ⟨2 ^ 10 + 2 ^ 17, [10, 17], false, 0, 64⟩ 0).getD initTState)
    (by decide) (by decide) (by decide) (by decide) (by decide) (by decide)

end Tour

namespace Tour

/-- Search-state invariant of the knight's-tour recursion: `visitedSqs` is
exactly the bitboard of the squares on the path stack, the stack repeats no
square, holds only board squares, consecutive stack entries are knight moves,
and the tour is not yet complete. -/
def goodStack (st : TState) : Prop :=
  st.visitedSqs = stackToBB st.stackSq ∧ st.stackSq.Nodup ∧ (∀ x ∈ st.stackSq, x < 64) ∧
    List.Chain' (fun a b => isKnightMove a b = true) st.stackSq ∧ st.fullTour = false

/-- What a tour-completing return guarantees: the entry path extended by `sq`
and some further squares, with full board coverage and all path invariants. -/
def tourPost (st : TState) (sq : Nat) (r : TState) : Prop :=
  ∃ ext, r.stackSq = st.stackSq ++ sq :: ext ∧ r.visitedSqs = FullBB ∧
    r.visitedSqs = stackToBB r.stackSq ∧ r.stackSq.Nodup ∧
    (∀ x ∈ r.stackSq, x < 64) ∧
    List.Chain' (fun a b => isKnightMove a b = true) r.stackSq

/-- Tour property of the candidate loop, generically in the recursive call. -/
theorem tourLoop_tour {f : TState → Nat → Option TState}
    (hf : ∀ st sq r, st.visitedSqs < 2 ^ 64 → sq < 64 →
      Nat.testBit st.visitedSqs sq = false → st.fullTour = false →
      f st sq = some r → r.fullTour = false →
      r.visitedSqs = st.visitedSqs ∧ r.stackSq = st.stackSq)
    (hg : ∀ st sq r, goodStack st → sq < 64 → Nat.testBit st.visitedSqs sq = false →
      (∀ x, st.stackSq.getLast? = some x → isKnightMove x sq = true) →
      f st sq = some r → r.fullTour = true → tourPost st sq r) :
    ∀ (ms : List (Nat × Nat)) (st r : TState), goodStack st →
      (∀ p ∈ ms, p.1 < 64 ∧ Nat.testBit st.visitedSqs p.1 = false ∧
        (∀ x, st.stackSq.getLast? = some x → isKnightMove x p.1 = true)) →
      tourLoop f st ms = some r → r.fullTour = true →
      ∃ ext, r.stackSq = st.stackSq ++ ext ∧ r.visitedSqs = FullBB ∧
        r.visitedSqs = stackToBB r.stackSq ∧ r.stackSq.Nodup ∧
        (∀ x ∈ r.stackSq, x < 64) ∧
        List.Chain' (fun a b => isKnightMove a b = true) r.stackSq := by
  intro ms
  induction ms with
  | nil =>
    intro st r hgood _ heq hr
    cases heq
    exact absurd hr (by simp [hgood.2.2.2.2])
  | cons p rest ih =>
    intro st r hgood hms heq hr
    rw [tourLoop] at heq
    cases hc : f st p.1 with
    | none => rw [hc] at heq; simp at heq
    | some st' =>
      rw [hc] at heq
      simp only at heq
      obtain ⟨hp1, hp2, hp3⟩ := hms p (List.mem_cons_self p rest)
      by_cases hft' : st'.fullTour
      · rw [if_pos hft'] at heq
        cases heq
        obtain ⟨ext, hstk, hfull, hbb, hnd, h64, hch⟩ :=
          hg st p.1 r hgood hp1 hp2 hp3 hc hft'
        exact ⟨p.1 :: ext, hstk, hfull, hbb, hnd, h64, hch⟩
      · rw [if_neg hft'] at heq
        have hlt : st.visitedSqs < 2 ^ 64 := by
          rw [hgood.1]; exact stackToBB_lt _
        obtain ⟨hv', hs'⟩ := hf st p.1 st' hlt hp1 hp2 hgood.2.2.2.2 hc
          (by simpa using hft')
        have hgood' : goodStack st' := by
          refine ⟨?_, ?_, ?_, ?_, by simpa using hft'⟩
          · rw [hv', hs']; exact hgood.1
          · rw [hs']; exact hgood.2.1
          · rw [hs']; exact hgood.2.2.1
          · rw [hs']; exact hgood.2.2.2.1
        obtain ⟨ext, hstk, hfull, hbb, hnd, h64, hch⟩ := ih st' r hgood'
          (by rw [hv', hs']; exact fun q hq => hms q (List.mem_cons_of_mem p hq)) heq hr
        exact ⟨ext, by rw [hstk, hs'], hfull, hbb, hnd, h64, hch⟩

end Tour

namespace Tour

/-- Tour property of `Backtrack::makeMove`: whenever a call on an unvisited
board square adjacent to the path's last square returns with `fullTour` set,
the final stack extends the entry stack by `sq` and further squares, covers
the whole board, and is a duplicate-free knight path. -/
theorem makeMove_tour :
    ∀ (fuel : Nat) (st0 : TState) (sq : Nat) (r : TState), goodStack st0 → sq < 64 →
      Nat.testBit st0.visitedSqs sq = false →
      (∀ x, st0.stackSq.getLast? = some x → isKnightMove x sq = true) →
      makeMove fuel st0 sq = some r → r.fullTour = true → tourPost st0 sq r := by
  intro fuel
  induction fuel with
  | zero =>
    intro st0 sq r _ _ _ _ heq _
    simp [makeMove] at heq
  | succ fuel ih =>
    intro st0 sq r hgood hsq hbit hadj heq hr
    obtain ⟨hbbeq, hnd, h64, hch, hft⟩ := hgood
    have hlt : st0.visitedSqs < 2 ^ 64 := by rw [hbbeq]; exact stackToBB_lt _
    have hbb' : setBit st0.visitedSqs sq = stackToBB (st0.stackSq ++ [sq]) := by
      rw [stackToBB_append, hbbeq]
    have hnotmem : sq ∉ st0.stackSq := by
      intro hmem
      rw [hbbeq, testBit_stackToBB h64] at hbit
      simp [hmem] at hbit
    have hnd' : (st0.stackSq ++ [sq]).Nodup :=
      ((List.perm_append_singleton sq st0.stackSq).nodup_iff).mpr
        (List.nodup_cons.mpr ⟨hnotmem, hnd⟩)
    have h64' : ∀ x ∈ st0.stackSq ++ [sq], x < 64 := by
      intro x hx
      rcases List.mem_append.mp hx with h | h
      · exact h64 x h
      · rw [List.mem_singleton.mp h]; exact hsq
    have hch' : List.Chain' (fun a b => isKnightMove a b = true) (st0.stackSq ++ [sq]) := by
      rw [List.chain'_append]
      refine ⟨hch, List.chain'_singleton sq, ?_⟩
      intro x hx y hy
      rw [Option.mem_def, List.head?_cons, Option.some.injEq] at hy
      exact hy ▸ hadj x hx
    rw [makeMove] at heq
    simp only at heq
    by_cases hfull : setBit st0.visitedSqs sq = FullBB
    · rw [if_pos hfull] at heq
      cases heq
      exact ⟨[], by simp, hfull, by rw [hfull] at hbb'; exact hbb'.symm ▸ hbb' ▸ hfull ▸ hbb',
        hnd', h64', hch'⟩
    · rw [if_neg hfull] at heq
      by_cases hempty :
          (((genList (setBit st0.visitedSqs sq) sq).takeWhile fun p => p.1 ≠ noSq).isEmpty : Bool)
      · rw [if_pos hempty] at heq
        cases heq
        exact absurd hr (by simp [hft])
      · rw [if_neg hempty] at heq
        cases hc : tourLoop (makeMove fuel)
            { st0 with totalMoves := st0.totalMoves + 1,
                       visitedSqs := setBit st0.visitedSqs sq,
                       stackSq := st0.stackSq ++ [sq] }
            ((genList (setBit st0.visitedSqs sq) sq).takeWhile fun p => p.1 ≠ noSq) with
        | none => rw [hc] at heq; simp at heq
        | some st' =>
          rw [hc] at heq
          simp only at heq
          by_cases hft' : st'.fullTour
          · rw [if_pos hft'] at heq
            cases heq
            have hgood1 : goodStack
                { st0 with totalMoves := st0.totalMoves + 1,
                           visitedSqs := setBit st0.visitedSqs sq,
                           stackSq := st0.stackSq ++ [sq] } := by
              exact ⟨hbb', hnd', h64', hch', hft⟩
            have hmoves : ∀ p ∈ (genList (setBit st0.visitedSqs sq) sq).takeWhile
                fun p => p.1 ≠ noSq,
                p.1 < 64 ∧ Nat.testBit (setBit st0.visitedSqs sq) p.1 = false ∧
                  (∀ x, (st0.stackSq ++ [sq]).getLast? = some x →
                    isKnightMove x p.1 = true) := by
              intro p hp
              obtain ⟨h1, _, _, h4, h5⟩ := mem_genList_real (setBit_lt hlt sq) hp
              refine ⟨h1, h4, ?_⟩
              intro x hx
              rw [List.getLast?_concat, Option.some.injEq] at hx
              rw [← hx] at *
              rw [← knight_bridge sq hsq p.1 h1]
              exact h5
            obtain ⟨ext, hstk, hfull', hbb2, hnd2, h642, hch2⟩ :=
              tourLoop_tour (makeMove_frame fuel) ih _ _ r hgood1
                (by simpa using hmoves) hc hr
            simp only at hstk
            exact ⟨ext, by rw [hstk, List.append_assoc]; rfl, hfull', hbb2, hnd2, h642, hch2⟩
          · rw [if_neg hft'] at heq
            cases heq
            simp at hr
            exact absurd hr (by simpa using hft')

end Tour

namespace Tour

/-- Claim C3: for every starting square in `0..63`, if the search returns with
`fullTour` true, then the final path stack has exactly 64 entries, every
square index `0..63` appears in it exactly once, its first entry is the
starting square, and every consecutive pair of entries is a legal knight move
on the 8x8 board. -/
theorem claim_C3_full_tour_is_valid (start : Nat) (hstart : start < 64) (fuel : Nat)
    (r : TState) (heq : backtrack fuel start = some r) (hr : r.fullTour = true) :
    r.stackSq.length = 64 ∧ (∀ i, i < 64 → r.stackSq.count i = 1) ∧
      r.stackSq.head? = some start ∧
      List.Chain' (fun a b => isKnightMove a b = true) r.stackSq := by
  have hgood : goodStack { initTState with startingSq := start } := by
    refine ⟨?_, ?_, ?_, ?_, rfl⟩ <;> simp [initTState, stackToBB]
  obtain ⟨ext, hstk, hfull, hbb, hnd, h64, hch⟩ :=
    makeMove_tour fuel { initTState with startingSq := start } start r hgood hstart
      (by simp [initTState]) (by simp [initTState]) heq hr
  simp only [initTState, List.nil_append] at hstk
  have hmem : ∀ i, i < 64 → i ∈ r.stackSq := by
    intro i hi
    have := testBit_stackToBB h64 i
    rw [← hbb, hfull, testBit_FullBB] at this
    simpa [hi] using this.symm
  have hlen : r.stackSq.length = 64 := by
    have hle : r.stackSq.length ≤ 64 := by
      have := (List.subperm_of_subset hnd
        (fun x hx => List.mem_range.mpr (h64 x hx))).length_le
      simpa using this
    have hge : 64 ≤ r.stackSq.length := by
      have := (List.subperm_of_subset (List.nodup_range 64)
        (fun x hx => hmem x (List.mem_range.mp hx))).length_le
      simpa using this
    omega
  refine ⟨hlen, ?_, ?_, hch⟩
  · exact fun i hi => List.count_eq_one_of_mem hnd (hmem i hi)
  · rw [hstk]; rfl

/-- Witness for claim C3 at the successful concrete run from square a1. -/
theorem claim_C3_witness :
    ((backtrack 100 0).getD initTState).stackSq.length = 64 ∧
      (∀ i, i < 64 → ((backtrack 100 0).getD initTState).stackSq.count i = 1) ∧
      ((backtrack 100 0).getD initTState).stackSq.head? = some 0 ∧
      List.Chain' (fun a b => isKnightMove a b = true)
        ((backtrack 100 0).getD initTState).stackSq :=
  claim_C3_full_tour_is_valid 0 (by decide) 100 ((backtrack 100 0).getD initTState)
    (by decide) (by decide)

/-- Claim C4: the knight's-tour search started at square a1 (index 0) on an
initially empty board terminates (with ample fuel) with `fullTour` true and a
path stack of length 64. -/
theorem claim_C4_a1_tour_found :
    (backtrack 100 0).map (fun st => (st.fullTour, st.stackSq.length)) = some (true, 64) := by
  decide

end Tour

namespace Tour

theorem tourLoop_congr {f g : TState → Nat → Option TState}
    (h : ∀ st sq, st.fullTour = false → f st sq = g st sq) :
    ∀ (ms : List (Nat × Nat)) (st : TState), st.fullTour = false →
      tourLoop f st ms = tourLoop g st ms := by
  intro ms
  induction ms with
  | nil => intro st _; rfl
  | cons p rest ih =>
    intro st hft
    rw [tourLoop, tourLoop, ← h st p.1 hft]
    cases hc : f st p.1 with
    | none => rfl
    | some st' =>
      simp only
      by_cases hft' : st'.fullTour
      · rw [if_pos hft', if_pos hft']
      · rw [if_neg hft', if_neg hft', ih st' (by simpa using hft')]

/-- The two `makeMove` variants agree on every call whose entry state has
`fullTour` still false: under that hypothesis the completion tests
`visitedSqs == FullBB` and `(visitedSqs == FullBB) || fullTour` coincide, and
all recursive calls are again entered with `fullTour` false. -/
theorem makeMove_eq_makeMove2 :
    ∀ (fuel : Nat) (st : TState) (sq : Nat), st.fullTour = false →
      makeMove fuel st sq = makeMove2 fuel st sq := by
  intro fuel
  induction fuel with
  | zero => intro st sq _; rfl
  | succ fuel ih =>
    intro st sq hft
    rw [makeMove, makeMove2]
    simp only
    by_cases hfull : setBit st.visitedSqs sq = FullBB
    · rw [if_pos hfull, if_pos (Or.inl hfull)]
    · have hcond : ¬(setBit st.visitedSqs sq = FullBB ∨
          ({ st with totalMoves := st.totalMoves + 1,
                     visitedSqs := setBit st.visitedSqs sq,
                     stackSq := st.stackSq ++ [sq] } : TState).fullTour = true) := by
        simp [hfull, hft]
      rw [if_neg hfull, if_neg hcond]
      by_cases hempty :
          (((genList (setBit st.visitedSqs sq) sq).takeWhile fun p => p.1 ≠ noSq).isEmpty : Bool)
      · rw [if_pos hempty, if_pos hempty]
      · rw [if_neg hempty, if_neg hempty,
          tourLoop_congr ih _ _ (by simpa using hft)]

/-- Claim C10: the two knight's-tour variants are behaviorally equivalent —
for every starting square (and every fuel), the search of
`src/knights_tour/main.cpp` (completion test `(visitedSqs == FullBB) ||
fullTour`) and that of `src/unnamed/part_000` (test `visitedSqs == FullBB`)
return identical results (same final `visitedSqs`, path stack, `fullTour` and
`totalMoves`), because `fullTour` is never true at entry to `makeMove`. -/
theorem claim_C10_variants_equivalent (fuel sq : Nat) :
    backtrack fuel sq = backtrack2 fuel sq :=
  makeMove_eq_makeMove2 fuel { initTState with startingSq := sq } sq rfl

end Tour

namespace Tour

/-- Counterexample to claim C2 as stated.  In the first call of a search from
a1 (`sq = 0`, prior visited board `0`), `makeMove` marks a1 visited before
calling `genList`, so the candidate c2 (square 10) is paired with onward
degree 5; but on the board state *before* `sq` was marked visited, c2 has 6
legal knight moves (a1 itself is the sixth).  Hence the recorded degree does
not equal the count on the board before `sq` is marked. -/
theorem claim_C2_counterexample :
    ¬ ∀ p ∈ (genList (setBit 0 0) 0).takeWhile fun q => q.1 ≠ noSq,
        p.2 = bitCount (genMoveBoard 0 p.1) := by decide

/-- Claim C2 as amended: for every candidate destination `d` produced by the
`genList` call inside `makeMove` (whose visited board already has the current
square `sq` set), the paired onward degree equals the number of legal knight
moves from `d` on the board state *after* `sq` is marked visited; in
particular `sq` itself is never counted toward `d`'s onward degree. -/
theorem claim_C2_degree_after_marking (v0 sq : Nat) (hv : v0 < 2 ^ 64) (hsq : sq < 64) :
    ∀ p ∈ (genList (setBit v0 sq) sq).takeWhile fun q => q.1 ≠ noSq,
      p.2 = bitCount (genMoveBoard (setBit v0 sq) p.1) ∧
        Nat.testBit (genMoveBoard (setBit v0 sq) p.1) sq = false := by
  intro p hp
  obtain ⟨_, _, h3, _, _⟩ := mem_genList_real (setBit_lt hv sq) hp
  refine ⟨h3, ?_⟩
  rw [genMoveBoard_eq_raw_and (setBit_lt hv sq), Nat.testBit_and,
    testBit_compl64 (setBit_lt hv sq), testBit_setBit sq hsq]
  simp

/-- Witness for the amended claim C2, at the first call of the search from a1
and its candidate c2 (square 10, recorded onward degree 5). -/
theorem claim_C2_witness :
    (10, 5).2 = bitCount (genMoveBoard (setBit 0 0) (10, 5).1) ∧
      Nat.testBit (genMoveBoard (setBit 0 0) (10, 5).1) 0 = false :=
  claim_C2_degree_after_marking 0 0 (by decide) (by decide) (10, 5) (by decide)

end Tour

namespace Tour

theorem length_insertMove (x : Nat × Nat) :
    ∀ l : List (Nat × Nat), (insertMove x l).length = l.length + 1 := by
  intro l
  induction l with
  | nil => rfl
  | cons y l ih =>
    rw [insertMove]
    by_cases h : x.2 < y.2
    · rw [if_pos h]; rfl
    · rw [if_neg h]
      simp [ih]

theorem length_sortMoves_aux :
    ∀ (l acc : List (Nat × Nat)),
      (l.foldl (fun acc x => insertMove x acc) acc).length = acc.length + l.length := by
  intro l
  induction l with
  | nil => simp
  | cons x l ih =>
    intro acc
    rw [List.foldl_cons, ih, length_insertMove]
    simp [Nat.add_assoc, Nat.add_comm 1 l.length]

theorem length_sortMoves (l : List (Nat × Nat)) : (sortMoves l).length = l.length := by
  rw [sortMoves, length_sortMoves_aux]
  simp

/-- On every board square the raw knight-attack board has at most 8 set
bits. -/
theorem raw_degree_le_8 : ∀ sq, sq < 64 → (bitsAsc (genMoveBoard 0 sq)).length ≤ 8 := by
  decide

/-- Claim C5: for every board square `sq` and every visited bitboard, the
8-slot list returned by `genList` decomposes into a leading part `c` holding
exactly the unvisited knight destinations of `sq`, sorted by non-decreasing
onward degree with ties broken by ascending square index, followed by slots
all holding the sentinel `(noSq, 9)`. -/
theorem claim_C5_genList_sorted (v sq : Nat) (hv : v < 2 ^ 64) (hsq : sq < 64) :
    ∃ c : List (Nat × Nat),
      genList v sq = c ++ List.replicate (8 - c.length) (noSq, 9) ∧
      c.length ≤ 8 ∧ (genList v sq).length = 8 ∧ c.Pairwise lexKey ∧
      (∀ d : Nat, (∃ g, (d, g) ∈ c) ↔ Nat.testBit (genMoveBoard v sq) d = true) := by
  have hmono : ((List.range 64).filter (Nat.testBit (genMoveBoard v sq))).length ≤
      ((List.range 64).filter (Nat.testBit (genMoveBoard 0 sq))).length := by
    rw [← List.countP_eq_length_filter, ← List.countP_eq_length_filter]
    refine List.countP_mono_left fun i _ hi => ?_
    rw [genMoveBoard_eq_raw_and hv, Nat.testBit_and, Bool.and_eq_true] at hi
    exact hi.1
  have hc8 : (sortMoves ((bitsAsc (genMoveBoard v sq)).map
      fun d => (d, bitCount (genMoveBoard v d)))).length ≤ 8 := by
    rw [length_sortMoves, List.length_map]
    have hraw := raw_degree_le_8 sq hsq
    simp only [bitsAsc] at hraw ⊢
    exact le_trans hmono hraw
  refine ⟨sortMoves ((bitsAsc (genMoveBoard v sq)).map
    fun d => (d, bitCount (genMoveBoard v d))), rfl, hc8, ?_, ?_, ?_⟩
  · have hgl : genList v sq = sortMoves ((bitsAsc (genMoveBoard v sq)).map
        fun d => (d, bitCount (genMoveBoard v d))) ++
        List.replicate (8 - (sortMoves ((bitsAsc (genMoveBoard v sq)).map
          fun d => (d, bitCount (genMoveBoard v d)))).length) (noSq, 9) := rfl
    rw [hgl, List.length_append, List.length_replicate]
    omega
  · exact sortMoves_pairwise (List.pairwise_map.mpr (by
      refine (bitsAsc_pairwise _).imp ?_
      intro a b hab
      exact hab))
  · intro d
    constructor
    · rintro ⟨g, hg⟩
      obtain ⟨d', hd', hpair⟩ := List.mem_map.mp (mem_sortMoves.mp hg)
      have hd'd : d' = d := congrArg Prod.fst hpair
      subst hd'd
      exact (mem_bitsAsc.mp hd').2
    · intro hd
      have hd64 : d < 64 := by
        by_contra h
        rw [testBit_ge_64 (genMoveBoard_lt hv sq) (by omega)] at hd
        exact Bool.noConfusion hd
      exact ⟨bitCount (genMoveBoard v d),
        mem_sortMoves.mpr (List.mem_map.mpr ⟨d, mem_bitsAsc.mpr ⟨hd64, hd⟩, rfl⟩)⟩

/-- Witness for claim C5 at the board with a1 visited and current square a1. -/
theorem claim_C5_witness :
    ∃ c : List (Nat × Nat),
      genList 1 0 = c ++ List.replicate (8 - c.length) (noSq, 9) ∧
      c.length ≤ 8 ∧ (genList 1 0).length = 8 ∧ c.Pairwise lexKey ∧
      (∀ d : Nat, (∃ g, (d, g) ∈ c) ↔ Nat.testBit (genMoveBoard 1 0) d = true) :=
  claim_C5_genList_sorted 1 0 (by decide) (by decide)

end Tour
